import Mathlib

/-!
# Verification of the chess move engine (`chess.py`)

Shallow embedding of the repository's single source file: coordinate
codec (`algebraic_to_rc` / `rc_to_algebraic`), piece movement rules
(`pseudo_legal_moves` per piece kind, with the shared sliding-move
helper `line_moves`), the board (`Board.at` / `Board.move` /
`setup_initial`) and the game's move-command handling from
`Game.input_loop`.

Python strings are embedded as `List Char`; `str.strip` / `str.lower`
are modelled over the ASCII range (the only range the codec's
comparisons against letters `a`..`h` and digits `1`..`8` can accept).
Python integers are `Int`; board squares are `Int × Int` pairs
(row, column). The mutable `grid` is embedded as a function
`Int → Int → Option Piece`, with `Board.move` returning the success
flag together with the resulting board.
-/

namespace Chess

/-- The two colors, `WHITE = "W"` and `BLACK = "B"` in the source. -/
inductive Color where
  | white
  | black
deriving DecidableEq

/-- The six piece kinds: the source's `King`, `Queen`, `Rook`, `Bishop`,
`Knight`, `Pawn` subclasses of `Piece`. -/
inductive PieceKind where
  | king
  | queen
  | rook
  | bishop
  | knight
  | pawn
deriving DecidableEq

/-- A piece: a kind (the Python subclass) carrying a color. -/
structure Piece where
  kind : PieceKind
  color : Color
deriving DecidableEq

open Color PieceKind

/-- `in_bounds(r, c)`: `0 <= r < 8 and 0 <= c < 8`. -/
def in_bounds (r c : Int) : Bool :=
  decide (0 ≤ r ∧ r < 8 ∧ 0 ≤ c ∧ c < 8)

/-- `Piece.is_opponent(other)`: `other is not None and other.color != self.color`. -/
def Piece.is_opponent (p : Piece) (other : Option Piece) : Bool :=
  match other with
  | none => false
  | some t => decide (t.color ≠ p.color)

/-- The board: the source's `grid`, an 8×8 array of optional pieces,
embedded as a total function on integer coordinates.  `at'` embeds
`Board.at(r, c)` (callers supply in-range squares). -/
structure Board where
  at' : Int → Int → Option Piece

/-- Writing one grid cell, `self.grid[r][c] = v`. -/
def Board.set (b : Board) (r c : Int) (v : Option Piece) : Board :=
  ⟨fun r' c' => if r' = r ∧ c' = c then v else b.at' r' c'⟩

/-- One direction of the `while in_bounds(rr, cc)` loop in
`Piece.line_moves`, starting at the already-stepped square `(rr, cc)`.
The loop visits at most 8 in-bounds squares along a ray with a nonzero
direction, so fuel 8 is exact for every direction the source uses. -/
def line_walk (b : Board) (p : Piece) (dr dc : Int) : Int → Int → Nat → List (Int × Int)
  | _, _, 0 => []
  | rr, cc, fuel + 1 =>
    if in_bounds rr cc then
      match b.at' rr cc with
      | none => (rr, cc) :: line_walk b p dr dc (rr + dr) (cc + dc) fuel
      | some t => if p.is_opponent (some t) then [(rr, cc)] else []
    else []

/-- `Piece.line_moves(board, r, c, deltas)`: concatenate the walks of
all directions, in delta order. -/
def line_moves (b : Board) (p : Piece) (r c : Int) (deltas : List (Int × Int)) : List (Int × Int) :=
  deltas.flatMap fun d => line_walk b p d.1 d.2 (r + d.1) (c + d.2) 8

/-- King offsets: the double loop over `dr, dc in (-1,0,1)` skipping `(0,0)`,
in iteration order. -/
def king_deltas : List (Int × Int) :=
  [(-1, -1), (-1, 0), (-1, 1), (0, -1), (0, 1), (1, -1), (1, 0), (1, 1)]

/-- Knight offsets, in source order. -/
def knight_deltas : List (Int × Int) :=
  [(-2, -1), (-2, 1), (-1, -2), (-1, 2), (1, -2), (1, 2), (2, -1), (2, 1)]

/-- Queen directions, in source order. -/
def queen_deltas : List (Int × Int) :=
  [(-1, 0), (1, 0), (0, -1), (0, 1), (-1, -1), (-1, 1), (1, -1), (1, 1)]

/-- Rook directions, in source order. -/
def rook_deltas : List (Int × Int) :=
  [(-1, 0), (1, 0), (0, -1), (0, 1)]

/-- Bishop directions, in source order. -/
def bishop_deltas : List (Int × Int) :=
  [(-1, -1), (-1, 1), (1, -1), (1, 1)]

/-- The King/Knight pattern: one step per offset, kept if in bounds and
empty or opponent-occupied (`t is None or self.is_opponent(t)`). -/
def step_moves (b : Board) (p : Piece) (r c : Int) (deltas : List (Int × Int)) : List (Int × Int) :=
  deltas.filterMap fun d =>
    let rr := r + d.1
    let cc := c + d.2
    if in_bounds rr cc then
      if b.at' rr cc = none ∨ p.is_opponent (b.at' rr cc) then some (rr, cc) else none
    else none

/-- The pawn's direction `d = -1 if self.color == WHITE else 1`. -/
def pawn_dir (col : Color) : Int :=
  if col = white then -1 else 1

/-- The pawn's starting rank `start = 6 if self.color == WHITE else 1`. -/
def pawn_start (col : Color) : Int :=
  if col = white then 6 else 1

/-- `Pawn.pseudo_legal_moves`: one step forward onto an empty square,
the double step from the starting rank when both squares are empty,
and the two diagonal captures; in source append order. -/
def pawn_moves (b : Board) (p : Piece) (r c : Int) : List (Int × Int) :=
  let d : Int := pawn_dir p.color
  let start : Int := pawn_start p.color
  let forward :=
    if in_bounds (r + d) c ∧ b.at' (r + d) c = none then
      (r + d, c) ::
        (if r = start ∧ in_bounds (r + 2 * d) c ∧ b.at' (r + 2 * d) c = none then
          [(r + 2 * d, c)]
        else [])
    else []
  let diagonals := ([-1, 1] : List Int).filterMap fun dc =>
    if in_bounds (r + d) (c + dc) then
      if p.is_opponent (b.at' (r + d) (c + dc)) then some (r + d, c + dc) else none
    else none
  forward ++ diagonals

/-- `pseudo_legal_moves(board, r, c)`, dispatching on the piece kind as
the source dispatches on the subclass. -/
def pseudo_legal_moves (b : Board) (p : Piece) (r c : Int) : List (Int × Int) :=
  match p.kind with
  | king => step_moves b p r c king_deltas
  | queen => line_moves b p r c queen_deltas
  | rook => line_moves b p r c rook_deltas
  | bishop => line_moves b p r c bishop_deltas
  | knight => step_moves b p r c knight_deltas
  | pawn => pawn_moves b p r c

/-- The self-capture guard of `Board.move`:
`t is not None and t.color == p.color` for `t = self.at(r2, c2)`. -/
def same_color_at (b : Board) (dst : Int × Int) (p : Piece) : Bool :=
  match b.at' dst.1 dst.2 with
  | some t => decide (t.color = p.color)
  | none => false

/-- `Board.move(src, dst)`: fail on vacant source, same-color target, or a
destination outside the mover's pseudo-legal moves; otherwise relocate
(destination written first, then source cleared, as in the source) and
promote a pawn reaching the opposite back rank to a queen.  Returns the
success flag together with the resulting board. -/
def Board.move (b : Board) (src dst : Int × Int) : Bool × Board :=
  match b.at' src.1 src.2 with
  | none => (false, b)
  | some p =>
    if same_color_at b dst p then
      (false, b)
    else if (dst.1, dst.2) ∈ pseudo_legal_moves b p src.1 src.2 then
      let b1 := (b.set dst.1 dst.2 (some p)).set src.1 src.2 none
      if p.kind = pawn ∧ ((p.color = white ∧ dst.1 = 0) ∨ (p.color = black ∧ dst.1 = 7)) then
        (true, b1.set dst.1 dst.2 (some ⟨queen, p.color⟩))
      else
        (true, b1)
    else
      (false, b)

/-- `Board.legal_moves_from(r, c)`: the occupant's pseudo-legal moves, or
the empty list for a vacant square. -/
def Board.legal_moves_from (b : Board) (r c : Int) : List (Int × Int) :=
  match b.at' r c with
  | some p => pseudo_legal_moves b p r c
  | none => []

/-- The empty grid `[[None]*8 for _ in range(8)]`. -/
def empty_board : Board := ⟨fun _ _ => none⟩

/-- The back-rank `order` list: Rook, Knight, Bishop, Queen, King, Bishop,
Knight, Rook. -/
def back_rank_order : List PieceKind :=
  [rook, knight, bishop, queen, king, bishop, knight, rook]

/-- `Board.setup_initial`: white pawns on row 6, black pawns on row 1,
then the back ranks on rows 7 (white) and 0 (black), in loop order. -/
def setup_initial (b : Board) : Board :=
  let b1 := (List.range 8).foldl
    (fun bb n =>
      (bb.set 6 (Int.ofNat n) (some ⟨pawn, white⟩)).set 1 (Int.ofNat n) (some ⟨pawn, black⟩))
    b
  back_rank_order.enum.foldl
    (fun bb pair =>
      (bb.set 7 (Int.ofNat pair.1) (some ⟨pair.2, white⟩)).set 0
        (Int.ofNat pair.1) (some ⟨pair.2, black⟩))
    b1

/-- A freshly constructed `Board()`. -/
def board_init : Board := setup_initial empty_board

/-! ## Coordinate codec -/

/-- The characters Python's default `str.strip` removes, over the ASCII
range: space, tab, LF, CR, vertical tab, form feed. -/
def py_is_space (ch : Char) : Bool :=
  ch = ' ' ∨ ch = Char.ofNat 9 ∨ ch = Char.ofNat 10 ∨ ch = Char.ofNat 13 ∨
    ch = Char.ofNat 11 ∨ ch = Char.ofNat 12

/-- `str.strip()`: drop whitespace from both ends. -/
def py_strip (s : List Char) : List Char :=
  ((s.dropWhile py_is_space).reverse.dropWhile py_is_space).reverse

/-- `str.lower()` over the ASCII range. -/
def py_lower (ch : Char) : Char :=
  if 'A' ≤ ch ∧ ch ≤ 'Z' then Char.ofNat (ch.toNat + 32) else ch

/-- The trimmed, lowercased form of the input: `s.strip().lower()`. -/
def normalize (s : List Char) : List Char :=
  (py_strip s).map py_lower

/-- `FILE_TO_COL`: the dictionary mapping `'a'..'h'` to `0..7`. -/
def file_to_col (ch : Char) : Option Int :=
  if ch = 'a' then some 0
  else if ch = 'b' then some 1
  else if ch = 'c' then some 2
  else if ch = 'd' then some 3
  else if ch = 'e' then some 4
  else if ch = 'f' then some 5
  else if ch = 'g' then some 6
  else if ch = 'h' then some 7
  else none

/-- `COL_TO_FILE` for the in-range columns `0..7` (the Python dictionary
has no other keys; callers only supply in-range columns). -/
def col_to_file (c : Int) : Char :=
  if c = 0 then 'a'
  else if c = 1 then 'b'
  else if c = 2 then 'c'
  else if c = 3 then 'd'
  else if c = 4 then 'e'
  else if c = 5 then 'f'
  else if c = 6 then 'g'
  else if c = 7 then 'h'
  else '?'

/-- The rank characters `"12345678"`. -/
def rank_chars : List Char := ['1', '2', '3', '4', '5', '6', '7', '8']

/-- `int(s[1])` for a digit character. -/
def digit_val (ch : Char) : Int :=
  (ch.toNat : Int) - 48

/-- The part of `algebraic_to_rc` after `s = s.strip().lower()`: require
exactly two characters, file in `'a'..'h'`, rank in `'1'..'8'`; return
`(8 - int(s[1]), FILE_TO_COL[s[0]])`, or `None` on any format failure. -/
def parse_normalized (t : List Char) : Option (Int × Int) :=
  match t with
  | [f, d] =>
    match file_to_col f with
    | some col => if d ∈ rank_chars then some (8 - digit_val d, col) else none
    | none => none
  | _ => none

/-- `algebraic_to_rc(s)`: strip and lowercase, then parse. -/
def algebraic_to_rc (s : List Char) : Option (Int × Int) :=
  parse_normalized (normalize s)

/-- `rc_to_algebraic(r, c)`: the file letter followed by the rank digit
`8 - r` (a single digit for every in-range row). -/
def rc_to_algebraic (r c : Int) : List Char :=
  [col_to_file c, Char.ofNat (48 + (8 - r).toNat)]

/-! ## Game -/

/-- The `Game` state: board, side to move, history of executed moves
(each the raw `"src -> dst"` text), and the loop flag. -/
structure Game where
  board : Board
  turn : Color
  history : List (List Char)
  running : Bool

/-- `Game.other(color)`. -/
def Color.other : Color → Color
  | white => black
  | black => white

/-- `Game.switch_turn()`. -/
def Game.switch_turn (g : Game) : Game :=
  { g with turn := g.turn.other }

/-- A fresh `Game()`: initial board, white to move, empty history. -/
def game_init : Game :=
  ⟨board_init, white, [], true⟩

/-- The history entry `f"{parts[0]} -> {parts[1]}"`. -/
def history_entry (s0 s1 : List Char) : List Char :=
  s0 ++ (" -> ".toList) ++ s1

/-- One move command of `Game.input_loop`, after splitting the input into
the two square texts: parse both squares (an unparsable square is
ignored), reject a vacant source or a piece that is not the mover's,
delegate to `Board.move`, and on success append the history entry and
switch the turn.  Returns whether a move was applied, with the new
game state. -/
def move_command (g : Game) (s0 s1 : List Char) : Bool × Game :=
  match algebraic_to_rc s0, algebraic_to_rc s1 with
  | some src, some dst =>
    match g.board.at' src.1 src.2 with
    | none => (false, g)
    | some p =>
      if p.color = g.turn then
        let res := g.board.move src dst
        if res.1 then
          (true, Game.switch_turn
            { g with
                board := res.2
                history := g.history ++ [history_entry s0 s1] })
        else
          (false, { g with board := res.2 })
      else
        (false, g)
  | _, _ => (false, g)

/-! ## Basic lemmas -/

theorem Board.at_set (b : Board) (r c : Int) (v : Option Piece) (r' c' : Int) :
    (b.set r c v).at' r' c' = if r' = r ∧ c' = c then v else b.at' r' c' := rfl

theorem in_bounds_iff {r c : Int} :
    in_bounds r c = true ↔ 0 ≤ r ∧ r < 8 ∧ 0 ≤ c ∧ c < 8 := by
  simp [in_bounds]

/-- The spec's syntactic description of a valid normalized square text:
exactly two characters, a file `'a'..'h'` followed by a rank `'1'..'8'`. -/
def valid_normalized (t : List Char) : Bool :=
  match t with
  | [f, d] => (file_to_col f).isSome && decide (d ∈ rank_chars)
  | _ => false

/-- A valid square text: valid after trimming and lowercasing. -/
def valid_square_text (s : List Char) : Bool :=
  valid_normalized (normalize s)

theorem parse_normalized_isSome (t : List Char) :
    (parse_normalized t).isSome = valid_normalized t := by
  cases t with
  | nil => rfl
  | cons f rest =>
    cases rest with
    | nil => rfl
    | cons d rest2 =>
      cases rest2 with
      | nil =>
        simp only [parse_normalized, valid_normalized]
        cases hc : file_to_col f with
        | none => simp only [hc]; rfl
        | some col => simp only [hc]; by_cases hd : d ∈ rank_chars <;> simp [hd]
      | cons e rest3 => rfl

theorem col_to_file_file_to_col {f : Char} {col : Int} (h : file_to_col f = some col) :
    col_to_file col = f := by
  unfold file_to_col at h
  split_ifs at h with h1 h2 h3 h4 h5 h6 h7 h8 <;>
    first
      | (injection h with hcol; subst hcol; simp_all [col_to_file])
      | exact absurd h (by simp)

theorem file_to_col_bounds {f : Char} {col : Int} (h : file_to_col f = some col) :
    0 ≤ col ∧ col < 8 := by
  unfold file_to_col at h
  split_ifs at h <;>
    first
      | (injection h with hcol; omega)
      | exact absurd h (by simp)

theorem rank_char_facts {d : Char} (h : d ∈ rank_chars) :
    1 ≤ digit_val d ∧ digit_val d ≤ 8 ∧ Char.ofNat (48 + (digit_val d).toNat) = d := by
  simp only [rank_chars, List.mem_cons, List.not_mem_nil, or_false] at h
  rcases h with rfl | rfl | rfl | rfl | rfl | rfl | rfl | rfl <;>
    exact ⟨by decide, by decide, by decide⟩

theorem parse_normalized_roundtrip (t : List Char) (h : valid_normalized t = true) :
    ∃ r c : Int, parse_normalized t = some (r, c) ∧ rc_to_algebraic r c = t := by
  cases t with
  | nil => simp [valid_normalized] at h
  | cons f rest =>
    cases rest with
    | nil => simp [valid_normalized] at h
    | cons d rest2 =>
      cases rest2 with
      | cons e rest3 => simp [valid_normalized] at h
      | nil =>
        simp only [valid_normalized, Bool.and_eq_true, Option.isSome_iff_exists,
          decide_eq_true_eq] at h
        obtain ⟨⟨col, hcol⟩, hd⟩ := h
        refine ⟨8 - digit_val d, col, ?_, ?_⟩
        · simp [parse_normalized, hcol, hd]
        · obtain ⟨-, -, hchar⟩ := rank_char_facts hd
          rw [rc_to_algebraic, col_to_file_file_to_col hcol]
          have hv : (8 : Int) - (8 - digit_val d) = digit_val d := by ring
          rw [hv, hchar]

theorem parse_normalized_some {t : List Char} {r c : Int}
    (h : parse_normalized t = some (r, c)) :
    in_bounds r c = true ∧
      ∃ f d, t = [f, d] ∧ file_to_col f = some c ∧ d ∈ rank_chars ∧ r = 8 - digit_val d := by
  cases t with
  | nil => simp [parse_normalized] at h
  | cons f rest =>
    cases rest with
    | nil => simp [parse_normalized] at h
    | cons d rest2 =>
      cases rest2 with
      | cons e rest3 => simp [parse_normalized] at h
      | nil =>
        simp only [parse_normalized] at h
        cases hc : file_to_col f with
        | none => simp only [hc] at h; exact absurd h (by simp)
        | some col =>
          simp only [hc] at h
          by_cases hd : d ∈ rank_chars
          · rw [if_pos hd] at h
            injection h with h'
            injection h' with h1 h2
            subst h1; subst h2
            obtain ⟨hv1, hv2, -⟩ := rank_char_facts hd
            obtain ⟨hb1, hb2⟩ := file_to_col_bounds hc
            exact ⟨in_bounds_iff.mpr ⟨by omega, by omega, hb1, hb2⟩,
              f, d, rfl, hc, hd, rfl⟩
          · rw [if_neg hd] at h; exact absurd h (by simp)

/-- Claim C4: for every row and column in `[0,7]`,
`algebraic_to_rc (rc_to_algebraic r c) = (r, c)`; and for every valid
input text (two characters, file `'a'..'h'`, rank `'1'..'8'`, up to case
and surrounding whitespace), formatting the parsed square gives back the
trimmed, lowercased form of the input. -/
theorem c4_codec_round_trip :
    (∀ r c : Fin 8,
      algebraic_to_rc (rc_to_algebraic ((r : ℕ) : Int) ((c : ℕ) : Int)) =
        some (((r : ℕ) : Int), ((c : ℕ) : Int))) ∧
    (∀ s : List Char, valid_square_text s = true →
      ∃ r c : Int, algebraic_to_rc s = some (r, c) ∧ rc_to_algebraic r c = normalize s) := by
  constructor
  · decide
  · intro s h
    exact parse_normalized_roundtrip (normalize s) h

/-- Witness for C4 at the concrete input `" E2 "`. -/
theorem c4_witness :
    ∃ r c : Int, algebraic_to_rc ((" E2 ").toList) = some (r, c) ∧
      rc_to_algebraic r c = normalize ((" E2 ").toList) :=
  c4_codec_round_trip.2 ((" E2 ").toList) (by decide)

/-! ## In-range move generation -/

theorem line_walk_bounds (b : Board) (p : Piece) (dr dc : Int) :
    ∀ (fuel : ℕ) (r0 c0 rr cc : Int),
      (rr, cc) ∈ line_walk b p dr dc r0 c0 fuel → in_bounds rr cc = true := by
  intro fuel
  induction fuel with
  | zero => intro r0 c0 rr cc h; simp [line_walk] at h
  | succ n ih =>
    intro r0 c0 rr cc h
    rw [line_walk] at h
    by_cases hb : in_bounds r0 c0
    · rw [if_pos hb] at h
      cases ha : b.at' r0 c0 with
      | none =>
        simp only [ha] at h
        rcases List.mem_cons.mp h with heq | hmem
        · injection heq with h1 h2; subst h1; subst h2; exact hb
        · exact ih _ _ _ _ hmem
      | some t =>
        simp only [ha] at h
        by_cases ho : p.is_opponent (some t)
        · rw [if_pos ho] at h
          rcases List.mem_singleton.mp h with heq
          injection heq with h1 h2; subst h1; subst h2; exact hb
        · rw [if_neg ho] at h; simp at h
    · rw [if_neg hb] at h; simp at h

theorem step_moves_bounds (b : Board) (p : Piece) (r c : Int) (deltas : List (Int × Int))
    {rr cc : Int} (h : (rr, cc) ∈ step_moves b p r c deltas) : in_bounds rr cc = true := by
  rw [step_moves, List.mem_filterMap] at h
  obtain ⟨d, -, hd⟩ := h
  by_cases hb : in_bounds (r + d.1) (c + d.2)
  · rw [if_pos hb] at hd
    by_cases he : b.at' (r + d.1) (c + d.2) = none ∨ p.is_opponent (b.at' (r + d.1) (c + d.2))
    · rw [if_pos he] at hd; injection hd with hd'; injection hd' with h1 h2
      subst h1; subst h2; exact hb
    · rw [if_neg he] at hd; exact absurd hd (by simp)
  · rw [if_neg hb] at hd; exact absurd hd (by simp)

theorem pawn_moves_bounds (b : Board) (p : Piece) (r c : Int)
    {rr cc : Int} (h : (rr, cc) ∈ pawn_moves b p r c) : in_bounds rr cc = true := by
  rw [pawn_moves] at h
  rcases List.mem_append.mp h with hf | hd
  · split_ifs at hf with h1 h2
    · rcases List.mem_cons.mp hf with heq | hmem
      · injection heq with e1 e2; subst e1; subst e2; exact h1.1
      · rcases List.mem_singleton.mp hmem with heq
        injection heq with e1 e2; subst e1; subst e2; exact h2.2.1
    · rcases List.mem_singleton.mp hf with heq
      injection heq with e1 e2; subst e1; subst e2; exact h1.1
    · simp at hf
  · rw [List.mem_filterMap] at hd
    obtain ⟨dc, -, hdc⟩ := hd
    split_ifs at hdc with h1 h2
    all_goals first
      | (injection hdc with hd'; injection hd' with e1 e2; subst e1; subst e2; exact h1)
      | exact absurd hdc (by simp)

theorem line_moves_bounds (b : Board) (p : Piece) (r c : Int) (deltas : List (Int × Int))
    {rr cc : Int} (h : (rr, cc) ∈ line_moves b p r c deltas) : in_bounds rr cc = true := by
  rw [line_moves, List.mem_flatMap] at h
  obtain ⟨d, -, hd⟩ := h
  exact line_walk_bounds b p d.1 d.2 8 _ _ _ _ hd

theorem pseudo_legal_moves_bounds (b : Board) (p : Piece) (r c : Int)
    {rr cc : Int} (h : (rr, cc) ∈ pseudo_legal_moves b p r c) : in_bounds rr cc = true := by
  obtain ⟨k, pc⟩ := p
  cases k
  case king => exact step_moves_bounds b ⟨king, pc⟩ r c king_deltas h
  case knight => exact step_moves_bounds b ⟨knight, pc⟩ r c knight_deltas h
  case pawn => exact pawn_moves_bounds b ⟨pawn, pc⟩ r c h
  case queen => exact line_moves_bounds b ⟨queen, pc⟩ r c queen_deltas h
  case rook => exact line_moves_bounds b ⟨rook, pc⟩ r c rook_deltas h
  case bishop => exact line_moves_bounds b ⟨bishop, pc⟩ r c bishop_deltas h

/-- Claim C9: `algebraic_to_rc` fails exactly when the trimmed,
lowercased input is not a file letter `'a'..'h'` followed by a rank
digit `'1'..'8'`; on success it returns the in-range square
`(8 - rank digit, file index)` (the embedding is a total function, so no
input can raise); and every square produced by any piece's pseudo-legal
move generation is within the `0..7` range. -/
theorem c9_parse_and_bounds_safety :
    (∀ s : List Char, algebraic_to_rc s = none ↔ valid_square_text s = false) ∧
    (∀ (s : List Char) (r c : Int), algebraic_to_rc s = some (r, c) →
      in_bounds r c = true ∧
        ∃ f d, normalize s = [f, d] ∧ file_to_col f = some c ∧ d ∈ rank_chars ∧
          r = 8 - digit_val d) ∧
    (∀ (b : Board) (p : Piece) (r c rr cc : Int),
      (rr, cc) ∈ pseudo_legal_moves b p r c → in_bounds rr cc = true) := by
  refine ⟨?_, ?_, ?_⟩
  · intro s
    have h := parse_normalized_isSome (normalize s)
    rw [show parse_normalized (normalize s) = algebraic_to_rc s from rfl] at h
    rw [show valid_normalized (normalize s) = valid_square_text s from rfl] at h
    cases hp : algebraic_to_rc s <;> rw [hp] at h <;> simp at h <;> simp [h.symm]
  · intro s r c hp
    exact parse_normalized_some hp
  · intro b p r c rr cc h
    exact pseudo_legal_moves_bounds b p r c h

/-- Witness for C9 at the concrete input `"e4"`. -/
theorem c9_witness :
    in_bounds 4 4 = true ∧
      ∃ f d, normalize (("e4").toList) = [f, d] ∧ file_to_col f = some 4 ∧
        d ∈ rank_chars ∧ (4 : Int) = 8 - digit_val d :=
  c9_parse_and_bounds_safety.2.1 (("e4").toList) 4 4 (by decide)

/-! ## Board.move -/

theorem move_fail_eq {b : Board} {src dst : Int × Int}
    (h : (b.move src dst).1 = false) : (b.move src dst).2 = b := by
  cases hsrc : b.at' src.1 src.2 with
  | none => simp only [Board.move, hsrc]
  | some p =>
    simp only [Board.move, hsrc] at h ⊢
    by_cases hg : same_color_at b dst p = true
    · rw [if_pos hg]
    · rw [if_neg hg] at h ⊢
      by_cases hm : (dst.1, dst.2) ∈ pseudo_legal_moves b p src.1 src.2
      · rw [if_pos hm] at h
        split at h <;> exact absurd h (by simp)
      · rw [if_neg hm]

theorem move_success_parts {b : Board} {src dst : Int × Int} {p : Piece}
    (hp : b.at' src.1 src.2 = some p) (hok : (b.move src dst).1 = true) :
    ¬(src.1 = dst.1 ∧ src.2 = dst.2) ∧ same_color_at b dst p = false ∧
      (dst.1, dst.2) ∈ pseudo_legal_moves b p src.1 src.2 := by
  simp only [Board.move, hp] at hok
  by_cases hg : same_color_at b dst p = true
  · rw [if_pos hg] at hok; exact absurd hok (by simp)
  · have hgf : same_color_at b dst p = false := by
      revert hg; cases same_color_at b dst p <;> simp
    rw [if_neg hg] at hok
    by_cases hm : (dst.1, dst.2) ∈ pseudo_legal_moves b p src.1 src.2
    · refine ⟨?_, hgf, hm⟩
      rintro ⟨h1, h2⟩
      have hds : b.at' dst.1 dst.2 = some p := by rw [← h1, ← h2]; exact hp
      have : same_color_at b dst p = true := by rw [same_color_at, hds]; simp
      rw [this] at hgf; exact Bool.noConfusion hgf
    · rw [if_neg hm] at hok; exact absurd hok (by simp)

/-- The board produced by a successful move, before promotion:
`grid[r2][c2] = p; grid[r1][c1] = None`. -/
theorem move_success_board {b : Board} {src dst : Int × Int} {p : Piece}
    (hp : b.at' src.1 src.2 = some p) (hok : (b.move src dst).1 = true) :
    (b.move src dst).2 =
      if p.kind = pawn ∧ ((p.color = white ∧ dst.1 = 0) ∨ (p.color = black ∧ dst.1 = 7)) then
        ((b.set dst.1 dst.2 (some p)).set src.1 src.2 none).set dst.1 dst.2
          (some ⟨queen, p.color⟩)
      else
        (b.set dst.1 dst.2 (some p)).set src.1 src.2 none := by
  obtain ⟨-, hgf, hm⟩ := move_success_parts hp hok
  have hg : ¬ same_color_at b dst p = true := by rw [hgf]; simp
  simp only [Board.move, hp]
  rw [if_neg hg, if_pos hm]
  split <;> rfl

/-- Claim C1: `Board.move(src, dst)` fails exactly when the source is
vacant, the destination holds a same-color piece, or the destination is
not among the mover's pseudo-legal moves; it succeeds otherwise. -/
theorem c1_move_failure_iff (b : Board) (src dst : Int × Int)
    (hs : in_bounds src.1 src.2 = true) (hd : in_bounds dst.1 dst.2 = true) :
    (b.move src dst).1 = false ↔
      b.at' src.1 src.2 = none ∨
        (∃ p t, b.at' src.1 src.2 = some p ∧ b.at' dst.1 dst.2 = some t ∧
          t.color = p.color) ∨
        ∃ p, b.at' src.1 src.2 = some p ∧
          (dst.1, dst.2) ∉ pseudo_legal_moves b p src.1 src.2 := by
  cases hsrc : b.at' src.1 src.2 with
  | none => simp [Board.move, hsrc]
  | some p =>
    simp only [Board.move, hsrc]
    by_cases hg : same_color_at b dst p = true
    · rw [if_pos hg]
      refine iff_of_true rfl (Or.inr (Or.inl ?_))
      rw [same_color_at] at hg
      cases hdst : b.at' dst.1 dst.2 with
      | none => rw [hdst] at hg; exact Bool.noConfusion hg
      | some t =>
        rw [hdst] at hg
        exact ⟨p, t, rfl, rfl, of_decide_eq_true hg⟩
    · rw [if_neg hg]
      by_cases hm : (dst.1, dst.2) ∈ pseudo_legal_moves b p src.1 src.2
      · rw [if_pos hm]
        constructor
        · intro hfalse
          split at hfalse <;> exact absurd hfalse (by simp)
        · rintro (h0 | ⟨p', t, hp', ht, hc⟩ | ⟨p', hp', hnm⟩)
          · exact Option.noConfusion h0
          · exfalso
            injection hp' with he
            subst he
            exact hg (by rw [same_color_at, ht]; simp [hc])
          · exfalso
            injection hp' with he
            subst he
            exact hnm hm
      · rw [if_neg hm]
        refine iff_of_true rfl (Or.inr (Or.inr ⟨p, rfl, hm⟩))

/-- Witness for C1 on the initial board with a vacant source square. -/
theorem c1_witness :
    (board_init.move (4, 4) (3, 4)).1 = false ↔
      board_init.at' 4 4 = none ∨
        (∃ p t, board_init.at' 4 4 = some p ∧ board_init.at' 3 4 = some t ∧
          t.color = p.color) ∨
        ∃ p, board_init.at' 4 4 = some p ∧
          ((3 : Int), (4 : Int)) ∉ pseudo_legal_moves board_init p 4 4 :=
  c1_move_failure_iff board_init (4, 4) (3, 4) (by decide) (by decide)

/-- Claim C2: a rejected `Board.move` leaves every square unchanged; in
particular moving onto a same-color piece is rejected and changes
nothing. -/
theorem c2_move_failure_atomic (b : Board) (src dst : Int × Int)
    (hs : in_bounds src.1 src.2 = true) (hd : in_bounds dst.1 dst.2 = true) :
    ((b.move src dst).1 = false →
      ∀ r c : Int, (b.move src dst).2.at' r c = b.at' r c) ∧
    ∀ p t, b.at' src.1 src.2 = some p → b.at' dst.1 dst.2 = some t →
      t.color = p.color →
      (b.move src dst).1 = false ∧
        ∀ r c : Int, (b.move src dst).2.at' r c = b.at' r c := by
  constructor
  · intro h r c
    rw [move_fail_eq h]
  · intro p t hp ht hc
    have hfail : (b.move src dst).1 = false := by
      simp only [Board.move, hp]
      rw [if_pos (by rw [same_color_at, ht]; simp [hc])]
    exact ⟨hfail, fun r c => by rw [move_fail_eq hfail]⟩

/-- Witness for C2: on the initial board, the white pawn at e2 cannot
capture the white pawn at d2. -/
theorem c2_witness :
    (board_init.move (6, 4) (6, 3)).1 = false ∧
      ∀ r c : Int, (board_init.move (6, 4) (6, 3)).2.at' r c = board_init.at' r c :=
  (c2_move_failure_atomic board_init (6, 4) (6, 3) (by decide) (by decide)).2
    ⟨pawn, white⟩ ⟨pawn, white⟩ (by decide) (by decide) rfl

/-- Claim C3: a successful `Board.move` empties the source and puts the
moved piece on the destination — or a same-color queen instead when the
mover is a pawn landing on the opposite back rank. -/
theorem c3_move_success_relocates (b : Board) (src dst : Int × Int) (p : Piece)
    (hp : b.at' src.1 src.2 = some p) (hok : (b.move src dst).1 = true) :
    (b.move src dst).2.at' src.1 src.2 = none ∧
    (b.move src dst).2.at' dst.1 dst.2 =
      (if p.kind = pawn ∧ ((p.color = white ∧ dst.1 = 0) ∨ (p.color = black ∧ dst.1 = 7))
        then some ⟨queen, p.color⟩ else some p) := by
  obtain ⟨hne, -, -⟩ := move_success_parts hp hok
  have hne' : ¬(dst.1 = src.1 ∧ dst.2 = src.2) := fun hh => hne ⟨hh.1.symm, hh.2.symm⟩
  rw [move_success_board hp hok]
  by_cases hpr : p.kind = pawn ∧
      ((p.color = white ∧ dst.1 = 0) ∨ (p.color = black ∧ dst.1 = 7))
  · rw [if_pos hpr, if_pos hpr]
    constructor
    · rw [Board.at_set, if_neg hne, Board.at_set, if_pos ⟨rfl, rfl⟩]
    · rw [Board.at_set, if_pos ⟨rfl, rfl⟩]
  · rw [if_neg hpr, if_neg hpr]
    constructor
    · rw [Board.at_set, if_pos ⟨rfl, rfl⟩]
    · rw [Board.at_set, if_neg hne', Board.at_set, if_pos ⟨rfl, rfl⟩]

/-- A board with a single white pawn on a7, for the promotion example. -/
def promo_board : Board := empty_board.set 1 0 (some ⟨pawn, white⟩)

/-- Witness for C3: the promotion example — a white pawn moving a7 to a8
leaves a white queen on a8 and nothing on a7. -/
theorem c3_witness :
    (promo_board.move (1, 0) (0, 0)).2.at' 0 0 = some ⟨queen, white⟩ ∧
      (promo_board.move (1, 0) (0, 0)).2.at' 1 0 = none := by
  have h := c3_move_success_relocates promo_board (1, 0) (0, 0) ⟨pawn, white⟩
    (by decide) (by decide)
  exact ⟨by rw [h.2]; rfl, h.1⟩

/-- Claim C10: a successful `Board.move(src, dst)` modifies only the two
cells `src` and `dst`. -/
theorem c10_move_frame (b : Board) (src dst : Int × Int) (r c : Int)
    (hok : (b.move src dst).1 = true) (h1 : (r, c) ≠ src) (h2 : (r, c) ≠ dst) :
    (b.move src dst).2.at' r c = b.at' r c := by
  have hrc1 : ¬(r = src.1 ∧ c = src.2) := fun hh => h1 (Prod.ext_iff.mpr ⟨hh.1, hh.2⟩)
  have hrc2 : ¬(r = dst.1 ∧ c = dst.2) := fun hh => h2 (Prod.ext_iff.mpr ⟨hh.1, hh.2⟩)
  cases hsrc : b.at' src.1 src.2 with
  | none => simp only [Board.move, hsrc] at hok; exact Bool.noConfusion hok
  | some p =>
    rw [move_success_board hsrc hok]
    by_cases hpr : p.kind = pawn ∧
        ((p.color = white ∧ dst.1 = 0) ∨ (p.color = black ∧ dst.1 = 7))
    · rw [if_pos hpr, Board.at_set, if_neg hrc2, Board.at_set, if_neg hrc1,
        Board.at_set, if_neg hrc2]
    · rw [if_neg hpr, Board.at_set, if_neg hrc1, Board.at_set, if_neg hrc2]

/-- Witness for C10: the opening pawn move e2-e4 leaves a1 unchanged. -/
theorem c10_witness :
    (board_init.move (6, 4) (4, 4)).2.at' 0 0 = board_init.at' 0 0 :=
  c10_move_frame board_init (6, 4) (4, 4) 0 0 (by decide) (by decide) (by decide)

/-! ## Sliding moves -/

theorem line_walk_mem_iff (b : Board) (p : Piece) (dr dc : Int) :
    ∀ (fuel : ℕ) (r0 c0 rr cc : Int),
      ((rr, cc) ∈ line_walk b p dr dc r0 c0 fuel ↔
        ∃ j : ℕ, j < fuel ∧ rr = r0 + j * dr ∧ cc = c0 + j * dc ∧
          (∀ i : ℕ, i < j → in_bounds (r0 + i * dr) (c0 + i * dc) = true ∧
            b.at' (r0 + i * dr) (c0 + i * dc) = none) ∧
          in_bounds rr cc = true ∧
          (b.at' rr cc = none ∨ p.is_opponent (b.at' rr cc) = true)) := by
  intro fuel
  induction fuel with
  | zero =>
    intro r0 c0 rr cc
    constructor
    · intro h
      exact absurd h (List.not_mem_nil _)
    · rintro ⟨j, hj, -⟩
      exact absurd hj (Nat.not_lt_zero j)
  | succ n ih =>
    intro r0 c0 rr cc
    rw [line_walk]
    by_cases hb : in_bounds r0 c0 = true
    case neg =>
      rw [if_neg hb]
      constructor
      · intro h
        exact absurd h (List.not_mem_nil _)
      · rintro ⟨j, hj, hrr, hcc, hmid, hbt, hocc⟩
        cases j with
        | zero =>
          have e1 : rr = r0 := by simpa using hrr
          have e2 : cc = c0 := by simpa using hcc
          rw [e1, e2] at hbt
          exact absurd hbt hb
        | succ j' =>
          have h0 := hmid 0 (Nat.succ_pos j')
          exact absurd (by simpa using h0.1) hb
    case pos =>
      rw [if_pos hb]
      cases ha : b.at' r0 c0 with
      | none =>
        rw [List.mem_cons, ih (r0 + dr) (c0 + dc) rr cc]
        constructor
        · rintro (heq | ⟨j, hj, hrr, hcc, hmid, hbt, hocc⟩)
          · injection heq with e1 e2
            refine ⟨0, Nat.succ_pos n, by simp [e1], by simp [e2],
              fun i hi => absurd hi (Nat.not_lt_zero i), ?_, ?_⟩
            · rw [e1, e2]; exact hb
            · rw [e1, e2, ha]; exact Or.inl rfl
          · refine ⟨j + 1, by omega, ?_, ?_, ?_, hbt, hocc⟩
            · rw [hrr]; push_cast; ring
            · rw [hcc]; push_cast; ring
            · intro i hi
              cases i with
              | zero =>
                refine ⟨by simpa using hb, by simpa using ha⟩
              | succ i' =>
                have hmi := hmid i' (by omega)
                have heq1 : r0 + ((i' + 1 : ℕ) : ℤ) * dr = (r0 + dr) + (i' : ℤ) * dr := by
                  push_cast; ring
                have heq2 : c0 + ((i' + 1 : ℕ) : ℤ) * dc = (c0 + dc) + (i' : ℤ) * dc := by
                  push_cast; ring
                rw [heq1, heq2]
                exact hmi
        · rintro ⟨j, hj, hrr, hcc, hmid, hbt, hocc⟩
          cases j with
          | zero =>
            left
            have e1 : rr = r0 := by simpa using hrr
            have e2 : cc = c0 := by simpa using hcc
            rw [e1, e2]
          | succ j' =>
            right
            refine ⟨j', by omega, ?_, ?_, ?_, hbt, hocc⟩
            · rw [hrr]; push_cast; ring
            · rw [hcc]; push_cast; ring
            · intro i hi
              have hmi := hmid (i + 1) (by omega)
              have heq1 : r0 + ((i + 1 : ℕ) : ℤ) * dr = (r0 + dr) + (i : ℤ) * dr := by
                push_cast; ring
              have heq2 : c0 + ((i + 1 : ℕ) : ℤ) * dc = (c0 + dc) + (i : ℤ) * dc := by
                push_cast; ring
              rw [heq1, heq2] at hmi
              exact hmi
      | some t =>
        change ((rr, cc) ∈ (if p.is_opponent (some t) = true then [(r0, c0)] else [])) ↔ _
        by_cases ho : p.is_opponent (some t) = true
        · rw [if_pos ho, List.mem_singleton]
          constructor
          · intro heq
            injection heq with e1 e2
            refine ⟨0, Nat.succ_pos n, by simp [e1], by simp [e2],
              fun i hi => absurd hi (Nat.not_lt_zero i), ?_, ?_⟩
            · rw [e1, e2]; exact hb
            · rw [e1, e2, ha]; exact Or.inr ho
          · rintro ⟨j, hj, hrr, hcc, hmid, hbt, hocc⟩
            cases j with
            | zero =>
              have e1 : rr = r0 := by simpa using hrr
              have e2 : cc = c0 := by simpa using hcc
              rw [e1, e2]
            | succ j' =>
              have h0 := hmid 0 (Nat.succ_pos j')
              have hcontra : b.at' r0 c0 = none := by simpa using h0.2
              rw [ha] at hcontra
              exact absurd hcontra (by simp)
        · rw [if_neg ho]
          constructor
          · intro h
            exact absurd h (List.not_mem_nil _)
          · rintro ⟨j, hj, hrr, hcc, hmid, hbt, hocc⟩
            cases j with
            | zero =>
              have e1 : rr = r0 := by simpa using hrr
              have e2 : cc = c0 := by simpa using hcc
              rw [e1, e2, ha] at hocc
              rcases hocc with h | h
              · exact Option.noConfusion h
              · exact absurd h ho
            | succ j' =>
              have h0 := hmid 0 (Nat.succ_pos j')
              have hcontra : b.at' r0 c0 = none := by simpa using h0.2
              rw [ha] at hcontra
              exact absurd hcontra (by simp)

/-- The spec's description of one direction of the sliding walk from
`(r, c)` along `(dr, dc)`: the destination is `k ≥ 1` steps out, every
strictly earlier step lands on an in-bounds empty square, and the
destination itself is in bounds and empty or opponent-occupied. -/
def dir_reach (b : Board) (p : Piece) (r c dr dc rr cc : Int) : Prop :=
  ∃ k : ℕ, 1 ≤ k ∧ rr = r + k * dr ∧ cc = c + k * dc ∧
    (∀ i : ℕ, 1 ≤ i → i < k → in_bounds (r + i * dr) (c + i * dc) = true ∧
      b.at' (r + i * dr) (c + i * dc) = none) ∧
    in_bounds rr cc = true ∧
    (b.at' rr cc = none ∨ p.is_opponent (b.at' rr cc) = true)

/-- The spec's description of the full sliding-move set: reachable along
some direction of the given list. -/
def sliding_reach (b : Board) (p : Piece) (r c : Int) (deltas : List (Int × Int))
    (rr cc : Int) : Prop :=
  ∃ d ∈ deltas, dir_reach b p r c d.1 d.2 rr cc

theorem line_walk_dir_reach (b : Board) (p : Piece) {dr dc : Int} (r c rr cc : Int)
    (hdr : dr = -1 ∨ dr = 0 ∨ dr = 1) (hdc : dc = -1 ∨ dc = 0 ∨ dc = 1)
    (hnz : ¬(dr = 0 ∧ dc = 0)) :
    ((rr, cc) ∈ line_walk b p dr dc (r + dr) (c + dc) 8 ↔
      dir_reach b p r c dr dc rr cc) := by
  rw [line_walk_mem_iff b p dr dc 8 (r + dr) (c + dc) rr cc]
  constructor
  · rintro ⟨j, hj, hrr, hcc, hmid, hbt, hocc⟩
    refine ⟨j + 1, by omega, ?_, ?_, ?_, hbt, hocc⟩
    · rw [hrr]; push_cast; ring
    · rw [hcc]; push_cast; ring
    · intro i hi1 hik
      obtain ⟨i', rfl⟩ : ∃ i', i = i' + 1 := ⟨i - 1, by omega⟩
      have hmi := hmid i' (by omega)
      have heq1 : r + ((i' + 1 : ℕ) : ℤ) * dr = (r + dr) + (i' : ℤ) * dr := by
        push_cast; ring
      have heq2 : c + ((i' + 1 : ℕ) : ℤ) * dc = (c + dc) + (i' : ℤ) * dc := by
        push_cast; ring
      rw [heq1, heq2]
      exact hmi
  · rintro ⟨k, hk1, hrr, hcc, hmid, hbt, hocc⟩
    have hbt' := in_bounds_iff.mp hbt
    rw [hrr] at hbt'
    rw [hcc] at hbt'
    have hk8 : k ≤ 8 := by
      by_contra hgt
      push_neg at hgt
      have h1 := hmid 1 le_rfl (by omega)
      have hb1 := in_bounds_iff.mp h1.1
      rcases hdr with rfl | rfl | rfl <;> rcases hdc with rfl | rfl | rfl <;>
        first
          | exact hnz ⟨rfl, rfl⟩
          | (push_cast at hb1 hbt'; omega)
    obtain ⟨j, rfl⟩ : ∃ j, k = j + 1 := ⟨k - 1, by omega⟩
    refine ⟨j, by omega, ?_, ?_, ?_, hbt, hocc⟩
    · rw [hrr]; push_cast; ring
    · rw [hcc]; push_cast; ring
    · intro i hi
      have hmi := hmid (i + 1) (by omega) (by omega)
      have heq1 : r + ((i + 1 : ℕ) : ℤ) * dr = (r + dr) + (i : ℤ) * dr := by
        push_cast; ring
      have heq2 : c + ((i + 1 : ℕ) : ℤ) * dc = (c + dc) + (i : ℤ) * dc := by
        push_cast; ring
      rw [heq1, heq2] at hmi
      exact hmi

theorem line_moves_reach_iff (b : Board) (p : Piece) (r c : Int)
    (deltas : List (Int × Int))
    (hall : ∀ d ∈ deltas, (d.1 = -1 ∨ d.1 = 0 ∨ d.1 = 1) ∧
      (d.2 = -1 ∨ d.2 = 0 ∨ d.2 = 1) ∧ ¬(d.1 = 0 ∧ d.2 = 0))
    (rr cc : Int) :
    ((rr, cc) ∈ line_moves b p r c deltas ↔ sliding_reach b p r c deltas rr cc) := by
  rw [line_moves, List.mem_flatMap]
  constructor
  · rintro ⟨d, hd, hm⟩
    obtain ⟨h1, h2, h3⟩ := hall d hd
    exact ⟨d, hd, (line_walk_dir_reach b p r c rr cc h1 h2 h3).mp hm⟩
  · rintro ⟨d, hd, hreach⟩
    obtain ⟨h1, h2, h3⟩ := hall d hd
    exact ⟨d, hd, (line_walk_dir_reach b p r c rr cc h1 h2 h3).mpr hreach⟩

/-- A white rook on d4 with a same-color pawn on d6. -/
def rook_block_board : Board :=
  (empty_board.set 4 3 (some ⟨rook, white⟩)).set 2 3 (some ⟨pawn, white⟩)

/-- A white rook on d4 with an opponent pawn on d6. -/
def rook_capture_board : Board :=
  (empty_board.set 4 3 (some ⟨rook, white⟩)).set 2 3 (some ⟨pawn, black⟩)

/-- Claim C5: for the sliding pieces (Queen over 8 directions, Rook over
the 4 orthogonal, Bishop over the 4 diagonal), the pseudo-legal moves on
every board are exactly the squares reached by the outward walk: empty
squares are included and the walk continues, a same-color piece stops
the walk excluded, an opponent piece is included and stops the walk.
Consequently, a rook at d4 blocked by a same-color pawn at d6 reaches d5
but not d6/d7/d8, and with an opponent pawn at d6 it reaches d5 and d6
but not d7/d8. -/
theorem c5_sliding_moves :
    (∀ (b : Board) (col : Color) (r c rr cc : Int),
      ((rr, cc) ∈ pseudo_legal_moves b ⟨queen, col⟩ r c ↔
        sliding_reach b ⟨queen, col⟩ r c queen_deltas rr cc) ∧
      ((rr, cc) ∈ pseudo_legal_moves b ⟨rook, col⟩ r c ↔
        sliding_reach b ⟨rook, col⟩ r c rook_deltas rr cc) ∧
      ((rr, cc) ∈ pseudo_legal_moves b ⟨bishop, col⟩ r c ↔
        sliding_reach b ⟨bishop, col⟩ r c bishop_deltas rr cc)) ∧
    (((3, 3) ∈ pseudo_legal_moves rook_block_board ⟨rook, white⟩ 4 3) ∧
      ((2, 3) ∉ pseudo_legal_moves rook_block_board ⟨rook, white⟩ 4 3) ∧
      ((1, 3) ∉ pseudo_legal_moves rook_block_board ⟨rook, white⟩ 4 3) ∧
      ((0, 3) ∉ pseudo_legal_moves rook_block_board ⟨rook, white⟩ 4 3)) ∧
    (((3, 3) ∈ pseudo_legal_moves rook_capture_board ⟨rook, white⟩ 4 3) ∧
      ((2, 3) ∈ pseudo_legal_moves rook_capture_board ⟨rook, white⟩ 4 3) ∧
      ((1, 3) ∉ pseudo_legal_moves rook_capture_board ⟨rook, white⟩ 4 3) ∧
      ((0, 3) ∉ pseudo_legal_moves rook_capture_board ⟨rook, white⟩ 4 3)) := by
  refine ⟨?_, by decide, by decide⟩
  intro b col r c rr cc
  exact ⟨line_moves_reach_iff b ⟨queen, col⟩ r c queen_deltas (by decide) rr cc,
    line_moves_reach_iff b ⟨rook, col⟩ r c rook_deltas (by decide) rr cc,
    line_moves_reach_iff b ⟨bishop, col⟩ r c bishop_deltas (by decide) rr cc⟩

/-! ## Pawn moves -/

theorem mem_pawn_moves (b : Board) (col : Color) (r c x y : Int) :
    (x, y) ∈ pawn_moves b ⟨pawn, col⟩ r c ↔
      (in_bounds (r + pawn_dir col) c = true ∧ b.at' (r + pawn_dir col) c = none ∧
        ((x = r + pawn_dir col ∧ y = c) ∨
          (r = pawn_start col ∧ in_bounds (r + 2 * pawn_dir col) c = true ∧
            b.at' (r + 2 * pawn_dir col) c = none ∧
            x = r + 2 * pawn_dir col ∧ y = c))) ∨
      ∃ dc : Int, (dc = -1 ∨ dc = 1) ∧
        in_bounds (r + pawn_dir col) (c + dc) = true ∧
        (Piece.mk pawn col).is_opponent (b.at' (r + pawn_dir col) (c + dc)) = true ∧
        x = r + pawn_dir col ∧ y = c + dc := by
  rw [pawn_moves]
  dsimp only
  rw [List.mem_append, List.mem_filterMap]
  constructor
  · rintro (hf | ⟨dc, hdc, hif⟩)
    · split_ifs at hf with h1 h2
      · rcases List.mem_cons.mp hf with heq | hmem
        · injection heq with e1 e2
          exact Or.inl ⟨h1.1, h1.2, Or.inl ⟨e1, e2⟩⟩
        · rcases List.mem_singleton.mp hmem with heq
          injection heq with e1 e2
          exact Or.inl ⟨h1.1, h1.2, Or.inr ⟨h2.1, h2.2.1, h2.2.2, e1, e2⟩⟩
      · rcases List.mem_singleton.mp hf with heq
        injection heq with e1 e2
        exact Or.inl ⟨h1.1, h1.2, Or.inl ⟨e1, e2⟩⟩
      · exact absurd hf (List.not_mem_nil _)
    · have hdc' : dc = -1 ∨ dc = 1 := by simpa using hdc
      split_ifs at hif with h1 h2
      all_goals first
        | (injection hif with he; injection he with e1 e2;
            exact Or.inr ⟨dc, hdc', h1, h2, e1.symm, e2.symm⟩)
        | exact absurd hif (by simp)
  · rintro (⟨h1b, h1e, hcase⟩ | ⟨dc, hdc, hb2, ho2, e1, e2⟩)
    · left
      rw [if_pos ⟨h1b, h1e⟩]
      rcases hcase with ⟨e1, e2⟩ | ⟨hst, hb2, he2, e1, e2⟩
      · exact List.mem_cons.mpr (Or.inl (by rw [e1, e2]))
      · refine List.mem_cons.mpr (Or.inr ?_)
        rw [if_pos ⟨hst, hb2, he2⟩]
        exact List.mem_singleton.mpr (by rw [e1, e2])
    · right
      refine ⟨dc, ?_, ?_⟩
      · rcases hdc with rfl | rfl <;> simp
      · rw [if_pos hb2, if_pos ho2, e1, e2]

/-- Claim C6: the pawn's pseudo-legal moves — the one-step forward square
is included exactly when in bounds and empty; the two-step square exactly
when the pawn sits on its starting rank and both forward squares are
empty; a forward-diagonal square exactly when it is in bounds and holds an
opponent piece (never when empty). -/
theorem c6_pawn_move_characterization (b : Board) (col : Color) (r c : Int)
    (hr : 0 ≤ r ∧ r < 8) (hc : 0 ≤ c ∧ c < 8) :
    ((r + pawn_dir col, c) ∈ pseudo_legal_moves b ⟨pawn, col⟩ r c ↔
      in_bounds (r + pawn_dir col) c = true ∧ b.at' (r + pawn_dir col) c = none) ∧
    ((r + 2 * pawn_dir col, c) ∈ pseudo_legal_moves b ⟨pawn, col⟩ r c ↔
      r = pawn_start col ∧ b.at' (r + pawn_dir col) c = none ∧
        b.at' (r + 2 * pawn_dir col) c = none) ∧
    (∀ dc : Int, dc = -1 ∨ dc = 1 →
      ((r + pawn_dir col, c + dc) ∈ pseudo_legal_moves b ⟨pawn, col⟩ r c ↔
        in_bounds (r + pawn_dir col) (c + dc) = true ∧
          (Piece.mk pawn col).is_opponent (b.at' (r + pawn_dir col) (c + dc)) = true)) := by
  have hds : (pawn_dir col = -1 ∧ pawn_start col = 6) ∨
      (pawn_dir col = 1 ∧ pawn_start col = 1) := by
    cases col <;> simp [pawn_dir, pawn_start]
  have hmm : ∀ x y : Int, ((x, y) ∈ pseudo_legal_moves b ⟨pawn, col⟩ r c ↔
      (x, y) ∈ pawn_moves b ⟨pawn, col⟩ r c) := fun x y => Iff.rfl
  refine ⟨?_, ?_, ?_⟩
  · rw [hmm, mem_pawn_moves]
    constructor
    · rintro (⟨h1b, h1e, -⟩ | ⟨dc, hdc, -, -, -, e2⟩)
      · exact ⟨h1b, h1e⟩
      · rcases hdc with rfl | rfl <;> omega
    · rintro ⟨h1b, h1e⟩
      exact Or.inl ⟨h1b, h1e, Or.inl ⟨rfl, rfl⟩⟩
  · rw [hmm, mem_pawn_moves]
    constructor
    · rintro (⟨h1b, h1e, hcase⟩ | ⟨dc, hdc, -, -, -, e2⟩)
      · rcases hcase with ⟨e1, -⟩ | ⟨hst, -, he2, -, -⟩
        · rcases hds with ⟨hd, -⟩ | ⟨hd, -⟩ <;> rw [hd] at e1 <;> omega
        · exact ⟨hst, h1e, he2⟩
      · rcases hdc with rfl | rfl <;> omega
    · rintro ⟨hst, he1, he2⟩
      rcases hds with ⟨hd, hs⟩ | ⟨hd, hs⟩ <;> rw [hs] at hst <;> rw [hd] at he1 he2 ⊢ <;>
        exact Or.inl ⟨in_bounds_iff.mpr (by omega), he1,
          Or.inr ⟨by rw [hs, hst], in_bounds_iff.mpr (by omega), he2, rfl, rfl⟩⟩
  · intro dc hdc
    rw [hmm, mem_pawn_moves]
    constructor
    · rintro (⟨-, -, hcase⟩ | ⟨dc', hdc', hb2, ho2, -, e2⟩)
      · rcases hcase with ⟨-, e2⟩ | ⟨-, -, -, -, e2⟩ <;> rcases hdc with rfl | rfl <;> omega
      · have hde : dc' = dc := by omega
        rw [hde] at hb2 ho2
        exact ⟨hb2, ho2⟩
    · rintro ⟨hb2, ho2⟩
      exact Or.inr ⟨dc, hdc, hb2, ho2, rfl, rfl⟩

/-- Witness for C6: a white pawn on its starting square e2 with e3 and e4
empty has both forward squares among its moves, and the diagonal towards
f3 is subject to the capture gate (empty here, so excluded). -/
theorem c6_witness :
    ((6 + pawn_dir white, (4 : Int)) ∈ pseudo_legal_moves board_init ⟨pawn, white⟩ 6 4) ∧
    ((6 + 2 * pawn_dir white, (4 : Int)) ∈ pseudo_legal_moves board_init ⟨pawn, white⟩ 6 4) ∧
    (((6 + pawn_dir white, (4 : Int) + 1) ∈ pseudo_legal_moves board_init ⟨pawn, white⟩ 6 4 ↔
      in_bounds (6 + pawn_dir white) (4 + 1) = true ∧
        (Piece.mk pawn white).is_opponent
          (board_init.at' (6 + pawn_dir white) (4 + 1)) = true)) := by
  have h := c6_pawn_move_characterization board_init white 6 4 (by decide) (by decide)
  exact ⟨h.1.mpr (by decide), (h.2.1).mpr (by decide), h.2.2 1 (Or.inr rfl)⟩

/-! ## Initial position -/

/-- All 64 squares of the grid, row-major. -/
def all_squares : List (Int × Int) :=
  (List.range 8).flatMap fun r => (List.range 8).map fun c => ((r : Int), (c : Int))

/-- The number of pieces of one color on the board. -/
def count_color (b : Board) (col : Color) : Nat :=
  (all_squares.filter fun sq =>
    (b.at' sq.1 sq.2).elim false fun p => decide (p.color = col)).length

/-- Claim C7: a freshly constructed board holds the standard starting
position — 16 pieces per color, white pawns on row 6 and black pawns on
row 1, back ranks in Rook-Knight-Bishop-Queen-King-Bishop-Knight-Rook
order on rows 7 (white) and 0 (black), and rows 2 through 5 empty. -/
theorem c7_initial_position :
    count_color board_init white = 16 ∧
    count_color board_init black = 16 ∧
    (∀ c : Fin 8, board_init.at' 6 ((c : ℕ) : Int) = some ⟨pawn, white⟩) ∧
    (∀ c : Fin 8, board_init.at' 1 ((c : ℕ) : Int) = some ⟨pawn, black⟩) ∧
    (∀ c : Fin 8,
      board_init.at' 7 ((c : ℕ) : Int) = some ⟨back_rank_order.getD (c : ℕ) king, white⟩) ∧
    (∀ c : Fin 8,
      board_init.at' 0 ((c : ℕ) : Int) = some ⟨back_rank_order.getD (c : ℕ) king, black⟩) ∧
    (∀ r : Fin 4, ∀ c : Fin 8,
      board_init.at' (((r : ℕ) : Int) + 2) ((c : ℕ) : Int) = none) := by
  decide

/-! ## Game move handling -/

/-- Claim C8: one step of the game's move-command handling — on any
failure (unparsable square, vacant source, piece not of the side to
move, or a rejected `Board.move`) the turn and the history are
unchanged; on success exactly one history entry (the entered
source/destination pair) is appended and the turn is flipped, i.e. the
turn ends as `other` of the previous turn (one switch, not zero or two);
and it succeeds exactly when both squares parse, the source holds a
piece of the side to move, and `Board.move` accepts. -/
theorem c8_move_command_turn_history (g : Game) (s0 s1 : List Char) :
    ((move_command g s0 s1).1 = false →
      (move_command g s0 s1).2.turn = g.turn ∧
        (move_command g s0 s1).2.history = g.history) ∧
    ((move_command g s0 s1).1 = true →
      (move_command g s0 s1).2.history = g.history ++ [history_entry s0 s1] ∧
        (move_command g s0 s1).2.turn = g.turn.other) ∧
    ((move_command g s0 s1).1 = true ↔
      ∃ src dst p, algebraic_to_rc s0 = some src ∧ algebraic_to_rc s1 = some dst ∧
        g.board.at' src.1 src.2 = some p ∧ p.color = g.turn ∧
        (g.board.move src dst).1 = true) := by
  cases h0 : algebraic_to_rc s0 with
  | none =>
    have hmc : move_command g s0 s1 = (false, g) := by simp [move_command, h0]
    rw [hmc]
    refine ⟨fun _ => ⟨rfl, rfl⟩, fun h => Bool.noConfusion h, ?_⟩
    refine ⟨fun h => Bool.noConfusion h, ?_⟩
    rintro ⟨src', dst', p', hs', -, -, -, -⟩
    exact Option.noConfusion hs'
  | some src =>
    cases h1 : algebraic_to_rc s1 with
    | none =>
      have hmc : move_command g s0 s1 = (false, g) := by simp [move_command, h0, h1]
      rw [hmc]
      refine ⟨fun _ => ⟨rfl, rfl⟩, fun h => Bool.noConfusion h, ?_⟩
      refine ⟨fun h => Bool.noConfusion h, ?_⟩
      rintro ⟨src', dst', p', -, hd', -, -, -⟩
      exact Option.noConfusion hd'
    | some dst =>
      cases hat : g.board.at' src.1 src.2 with
      | none =>
        have hmc : move_command g s0 s1 = (false, g) := by
          simp [move_command, h0, h1, hat]
        rw [hmc]
        refine ⟨fun _ => ⟨rfl, rfl⟩, fun h => Bool.noConfusion h, ?_⟩
        refine ⟨fun h => Bool.noConfusion h, ?_⟩
        rintro ⟨src', dst', p', hs', -, hp', -, -⟩
        injection hs' with hs'; subst hs'
        rw [hat] at hp'; exact Option.noConfusion hp'
      | some p =>
        by_cases hturn : p.color = g.turn
        · cases hok : (g.board.move src dst).1 with
          | false =>
            have hmc : move_command g s0 s1 =
                (false, { g with board := (g.board.move src dst).2 }) := by
              simp only [move_command, h0, h1, hat]
              rw [if_pos hturn]
              simp [hok]
            rw [hmc]
            refine ⟨fun _ => ⟨rfl, rfl⟩, fun h => Bool.noConfusion h, ?_⟩
            refine ⟨fun h => Bool.noConfusion h, ?_⟩
            rintro ⟨src', dst', p', hs', hd', -, -, hok'⟩
            injection hs' with hs'; subst hs'
            injection hd' with hd'; subst hd'
            rw [hok] at hok'; exact Bool.noConfusion hok'
          | true =>
            have hmc : move_command g s0 s1 =
                (true, Game.switch_turn
                  { g with
                      board := (g.board.move src dst).2
                      history := g.history ++ [history_entry s0 s1] }) := by
              simp only [move_command, h0, h1, hat]
              rw [if_pos hturn]
              simp [hok]
            rw [hmc]
            refine ⟨fun h => Bool.noConfusion h, fun _ => ⟨rfl, rfl⟩, ?_⟩
            exact iff_of_true rfl ⟨src, dst, p, rfl, rfl, hat, hturn, hok⟩
        · have hmc : move_command g s0 s1 = (false, g) := by
            simp only [move_command, h0, h1, hat]
            rw [if_neg hturn]
          rw [hmc]
          refine ⟨fun _ => ⟨rfl, rfl⟩, fun h => Bool.noConfusion h, ?_⟩
          refine ⟨fun h => Bool.noConfusion h, ?_⟩
          rintro ⟨src', dst', p', hs', -, hp', hc', -⟩
          injection hs' with hs'; subst hs'
          rw [hat] at hp'; injection hp' with hp'; subst hp'
          exact absurd hc' hturn

/-- Witness for C8: the opening move e2 e4 from the initial game appends
one history entry and hands the turn to black. -/
theorem c8_witness :
    (move_command game_init (("e2").toList) (("e4").toList)).2.history =
        game_init.history ++ [history_entry (("e2").toList) (("e4").toList)] ∧
      (move_command game_init (("e2").toList) (("e4").toList)).2.turn =
        game_init.turn.other :=
  (c8_move_command_turn_history game_init (("e2").toList) (("e4").toList)).2.1 (by decide)

end Chess
